import Mathlib

/-!
Verification development for the `slab.psychoacoustics` module
(`Trialsequence` and `Staircase`).  Python code is shallowly embedded:
Python ints become `ℤ`/`ℕ`, Python floats become exact `ℚ` (with the
multiplicative `db`/`log` step semantics kept abstract as a step
function, since those multiply by irrational powers of ten), fallible
list accesses (`IndexError` sites) become `Option`, and `numpy.random.shuffle`
becomes an oracle `ℕ → List ℕ` whose outputs are assumed to be
permutations of the shuffled list (which is what an in-place shuffle of
the aliased `self.conditions` list produces).
-/

namespace Slab

/-- Python list indexing `l[i]` for `i : ℤ`: negative indices count from
the end, out-of-range indexing is an `IndexError`, modelled as `none`. -/
def pyGet {α : Type} (l : List α) (i : ℤ) : Option α :=
  if i < 0 then
    (if (l.length : ℤ) + i < 0 then none else l.get? ((l.length : ℤ) + i).toNat)
  else l.get? i.toNat

/-- Python slice `l[-n:]` for `n : ℤ` (as used by `Staircase.threshold`):
for positive `n` the last `n` elements (all of `l` if `n ≥ len(l)`),
for `n = 0` all of `l` (since `-0 == 0`), for negative `n` the slice `l[|n|:]`. -/
def pySliceLast {α : Type} (l : List α) (n : ℤ) : List α :=
  if 0 < n then l.drop (l.length - n.toNat)
  else if n = 0 then l
  else l.drop (-n).toNat

/-! ## Trialsequence: state and iteration (`psychoacoustics.py` lines 70-161) -/

/-- The attributes of a `Trialsequence` object (conditions are modelled as
natural numbers; a list-of-dicts condition set is outside the claims'
scope except through `C2`, where condition *values* vs condition
*indices* is exactly the point). -/
structure TrialState where
  conditions : List ℕ
  n_conds : ℕ
  n_reps : ℕ
  trials : List ℕ
  n_trials : ℕ
  this_rep_n : ℕ
  this_trial_n : ℤ
  this_n : ℤ
  n_remaining : ℤ
  this_trial : Option ℕ
  finished : Bool
deriving DecidableEq

/-- Result of one `__next__` call: a produced trial, `StopIteration`, or a
hard fault (`IndexError` from an out-of-range lookup). -/
inductive PullResult where
  | val (c : ℕ)
  | stop
  | err
deriving DecidableEq

/-- `Trialsequence.__init__` after the conditions argument has been
resolved to a list (an integer argument `x` becomes `range(x)`); `trials`
is the trial-index list in effect after construction (either supplied
explicitly or produced by `_create_simple_sequence`). -/
def mkTrialseq (conds : List ℕ) (nreps : ℕ) (trials : List ℕ) : TrialState :=
  { conditions := conds
    n_conds := conds.length
    n_reps := nreps
    trials := trials
    n_trials := trials.length
    this_rep_n := 0
    this_trial_n := -1
    this_n := -1
    n_remaining := trials.length
    this_trial := none
    finished := false }

/-- `Trialsequence.__next__` (lines 118-137). -/
def tsNext (s : TrialState) : PullResult × TrialState :=
  let s1 := { s with this_trial_n := s.this_trial_n + 1
                     this_n := s.this_n + 1
                     n_remaining := s.n_remaining - 1 }
  let s2 := if (s1.n_conds : ℤ) ≤ s1.this_trial_n ∧ 1 < s1.n_reps then
              { s1 with this_trial_n := 0, this_rep_n := s1.this_rep_n + 1 }
            else s1
  let s3 := if (s2.trials.length : ℤ) ≤ s2.this_n then
              { s2 with this_trial := none, finished := true }
            else s2
  if s3.finished then (PullResult.stop, s3)
  else
    match pyGet s3.trials s3.this_n with
    | none => (PullResult.err, s3)
    | some idx =>
      match pyGet s3.conditions (idx : ℤ) with
      | none => (PullResult.err, s3)
      | some c => (PullResult.val c, { s3 with this_trial := some c })

/-- State after `k` calls to `__next__`. -/
def tsIterate (s : TrialState) : ℕ → TrialState
  | 0 => s
  | k + 1 => (tsNext (tsIterate s k)).2

/-- Result of the `(k+1)`-th call to `__next__`. -/
def pullAt (s : TrialState) (k : ℕ) : PullResult := (tsNext (tsIterate s k)).1

/-- `Trialsequence.get_future_trial` (lines 154-161). -/
def getFutureTrial (s : TrialState) (n : ℤ) : Option ℕ :=
  if s.n_remaining < n ∨ s.this_n + n < 0 then none
  else pyGet s.trials (s.this_n + n)

/-! ## `_create_simple_sequence` (lines 139-152)

`numpy.random.shuffle` is modelled by an oracle `ℕ → List ℕ`: call `t`
of the shuffle returns `oracle t`.  Because the code shuffles the
`self.conditions` list in place (via the alias `permute`), every shuffle
result is a permutation of the original conditions list; theorems take
this as the hypothesis `∀ t, (oracle t).Perm conds`.  The rejection
`while` loop gets explicit fuel; fuel exhaustion and the `IndexError`
from `self.trials[-1]` / `permute[0]` on empty lists both yield `none`. -/

/-- The `while self.trials[-1] == permute[0]` rejection loop for a
repetition after the first: `lastOpt` is the last element of the trials
built so far, `t` the index of the next shuffle call. Returns the
accepted permutation and the next unused shuffle index. -/
def csLoop (oracle : ℕ → List ℕ) (lastOpt : Option ℕ) : ℕ → ℕ → Option (List ℕ × ℕ)
  | 0, _ => none
  | fuel + 1, t =>
    match lastOpt, (oracle t).head? with
    | some a, some b => if b = a then csLoop oracle lastOpt fuel (t + 1) else some (oracle t, t + 1)
    | _, _ => none

/-- The `for rep in range(self.n_reps)` loop for repetitions `1..n_reps-1`:
`r` repetitions remain, `trials` is the sequence built so far. -/
def csReps (oracle : ℕ → List ℕ) (fuel : ℕ) : ℕ → List ℕ → ℕ → Option (List ℕ)
  | 0, trials, _ => some trials
  | r + 1, trials, t =>
    match csLoop oracle trials.getLast? fuel t with
    | none => none
    | some (p, t') => csReps oracle fuel r (trials ++ p) t'

/-- `Trialsequence._create_simple_sequence`: repetition 0 takes the first
shuffle unconditionally, later repetitions go through the rejection loop. -/
def createSimpleSequence (oracle : ℕ → List ℕ) (nreps fuel : ℕ) : Option (List ℕ) :=
  match nreps with
  | 0 => some []
  | r + 1 => csReps oracle fuel r (oracle 0) 1

/-- `Chained lastOpt bs`: each block of `bs` starts with an element
different from the last element of what precedes it (`lastOpt` for the
first block, the previous block's last element afterwards) — the shape
the rejection loop enforces on the blocks appended after the first
repetition. -/
def Chained : Option ℕ → List (List ℕ) → Prop
  | _, [] => True
  | lastOpt, b :: bs => b.head? ≠ lastOpt ∧ Chained b.getLast? bs

/-! ## `Trialsequence.mmn_sequence` (lines 186-204)

The float computation `int(numpy.ceil((2 / deviant_freq) - 7))` is
modelled with exact rationals (for the parameters of claim C9 the float
and rational results coincide).  The shuffle of the template-index list
is again an oracle output, constrained to be a permutation. -/

def mmnNPartials (f : ℚ) : ℕ := (Int.ceil (2 / f - 7)).toNat

def mmnReps (n : ℕ) (f : ℚ) : ℕ := (Int.ceil ((n : ℚ) / (mmnNPartials f : ℚ))).toNat

/-- The list `partials`: template `i` is `(3+i)` standards then one deviant. -/
def mmnPartials (f : ℚ) : List (List ℕ) :=
  (List.range (mmnNPartials f)).map (fun i => List.replicate (3 + i) 0 ++ [1])

/-- `idx = list(range(n_partials)) * reps` before shuffling. -/
def mmnIdxBase (n : ℕ) (f : ℚ) : List ℕ :=
  (List.replicate (mmnReps n f) (List.range (mmnNPartials f))).flatten

/-- The trial list built from the shuffled index list `idxs`:
concatenate the chosen partial blocks and truncate to `n` trials. -/
def mmnTrials (n : ℕ) (f : ℚ) (idxs : List ℕ) : List ℕ :=
  ((idxs.map (fun i => (mmnPartials f).getD i [])).flatten).take n

/-- Entry of a 0/1 trial list at position `i` (default `2`, outside the
alphabet, for out-of-range positions). -/
def nth (L : List ℕ) (i : ℕ) : ℕ := L.getD i 2

/-- Every run of 0s lying strictly between two 1s has length at least 3:
whenever positions `i < j` both hold a 1 and only 0s lie between them,
they are adjacent or at least 4 apart. -/
def GapProp (L : List ℕ) : Prop :=
  ∀ i j, i < j → j < L.length → nth L i = 1 → nth L j = 1 →
    (∀ k, i < k → k < j → nth L k = 0) → j = i + 1 ∨ i + 4 ≤ j

/-- Shape of an oddball partial block: at least 3 standards then one deviant. -/
def IsBlock (b : List ℕ) : Prop := ∃ m, 3 ≤ m ∧ b = List.replicate m 0 ++ [1]

/-! ## Staircase (`psychoacoustics.py` lines 207-432)

The intensity lives in an arbitrary linearly ordered type `α` (the
Python code uses floats).  The three `step_type` semantics are carried
as the functions `stepUp`/`stepDown : α → α → α` in the configuration
(first argument the step size, second the intensity): `'lin'` is
`x + s` / `x - s` (given below as `linStepInc`/`linStepDec`), while
`'db'` and `'log'` multiply/divide by `10^(s/20)` resp. `10^s`,
irrational factors that the embedding keeps abstract.  The step sizes
live in the same ordered type `α` as the intensities (both are Python
floats).  Fields
never mutated after `__init__` are grouped in `StairCfg`. -/

inductive Dir where
  | up
  | down
deriving DecidableEq

/-- Configuration fields of a `Staircase`, fixed at `__init__`. -/
structure StairCfg (α : Type) where
  start_val : α
  n_up : ℤ
  n_down : ℤ
  n_reversals : ℕ
  n_trials : ℕ
  step_sizes : List α
  variable_step : Bool
  min_val : Option α
  max_val : Option α
  stepUp : α → α → α
  stepDown : α → α → α

/-- Mutable state of a `Staircase`. -/
structure Stair (α : Type) where
  cfg : StairCfg α
  finished : Bool
  this_trial_n : ℤ
  data : List Bool
  intensities : List α
  reversal_points : List ℤ
  reversal_intensities : List α
  current_direction : Dir
  correct_counter : ℤ
  step_size_current : α
  next_intensity : α

/-- `'lin'` increment semantics: `self._next_intensity += self.step_size_current`. -/
def linStepInc {α : Type} [Add α] (s x : α) : α := x + s

/-- `'lin'` decrement semantics: `self._next_intensity -= self.step_size_current`. -/
def linStepDec {α : Type} [Sub α] (s x : α) : α := x - s

/-- `Staircase.__init__` (lines 234-310).  `step_sizes` arrives as the
list `list(step_sizes)` (a scalar argument becomes a one-element list);
an empty list raises `IndexError` at `self.step_sizes[0]`, hence `none`.
`n_reversals = none` models the Python default `None`. -/
def mkStaircase {α : Type} (start : α) (nRevs : Option ℕ) (stepSizes : List α)
    (nTrials : ℕ) (nUp nDown : ℤ) (minVal maxVal : Option α)
    (fUp fDown : α → α → α) : Option (Stair α) :=
  match stepSizes with
  | [] => none
  | s0 :: _ =>
    let nR : ℕ :=
      match nRevs with
      | none => stepSizes.length
      | some n => if n < stepSizes.length then stepSizes.length else n
    some
      { cfg :=
          { start_val := start
            n_up := nUp
            n_down := nDown
            n_reversals := nR
            n_trials := nTrials
            step_sizes := stepSizes
            variable_step := decide (1 < stepSizes.length)
            min_val := minVal
            max_val := maxVal
            stepUp := fUp
            stepDown := fDown }
        finished := false
        this_trial_n := -1
        data := []
        intensities := []
        reversal_points := []
        reversal_intensities := []
        current_direction := Dir.down
        correct_counter := 0
        step_size_current := s0
        next_intensity := start }

/-- `Staircase.__next__` (lines 312-327): when not finished, record the
intensity about to be presented and return it; when finished, raise
`StopIteration` (the psychometric-function tally only fills summary
fields outside the claims' scope). -/
def stairPull {α : Type} (s : Stair α) : Option (α × Stair α) :=
  if s.finished then none
  else
    some (s.next_intensity,
      { s with this_trial_n := s.this_trial_n + 1
               intensities := s.intensities ++ [s.next_intensity] })

/-- `Staircase._intensity_inc` (lines 395-405): apply the step, clamp at
`max_val` from above, reset the streak counter. -/
def intensityInc {α : Type} [LinearOrder α] (s : Stair α) : Stair α :=
  let x := s.cfg.stepUp s.step_size_current s.next_intensity
  let x' :=
    match s.cfg.max_val with
    | some m => if m < x then m else x
    | none => x
  { s with next_intensity := x', correct_counter := 0 }

/-- `Staircase._intensity_dec` (lines 407-417): apply the step, reset the
streak counter, clamp at `min_val` from below.  (The `db` branch is an
`if` rather than `elif` in the source, but since `step_type` matches at
most one of `db`/`log`/`lin` the three branches are mutually exclusive
anyway, so one abstract `stepDown` application is faithful.) -/
def intensityDec {α : Type} [LinearOrder α] (s : Stair α) : Stair α :=
  let x := s.cfg.stepDown s.step_size_current s.next_intensity
  let x' :=
    match s.cfg.min_val with
    | some m => if x < m then m else x
    | none => x
  { s with next_intensity := x', correct_counter := 0 }

/-- Lines 359-373 of `calculatenext_intensity`: compute whether this
response is a reversal and the new direction, from the pre-update state. -/
def computeReversal {α : Type} (last : Bool) (s : Stair α) : Bool × Dir :=
  if s.reversal_intensities.isEmpty then
    (if last then (decide (s.current_direction = Dir.up), Dir.down)
     else (decide (s.current_direction = Dir.down), Dir.up))
  else if s.cfg.n_down ≤ s.correct_counter then
    (decide (s.current_direction ≠ Dir.down), Dir.down)
  else if s.correct_counter ≤ -s.cfg.n_up then
    (decide (s.current_direction ≠ Dir.up), Dir.up)
  else (false, s.current_direction)

/-- Lines 374-376: on a reversal, append the trial index and
`self.intensities[-1]` (an `IndexError`, i.e. `none`, on an empty
intensity history) to the reversal logs. -/
def recordReversal {α : Type} (rev : Bool) (s : Stair α) : Option (Stair α) :=
  if rev then
    match s.intensities.getLast? with
    | none => none
    | some li =>
      some { s with reversal_points := s.reversal_points ++ [s.this_trial_n]
                    reversal_intensities := s.reversal_intensities ++ [li] }
  else some s

/-- Lines 377-378: the dual stopping rule. -/
def updateFinished {α : Type} (s : Stair α) : Stair α :=
  if s.cfg.n_reversals ≤ s.reversal_intensities.length ∧
     s.cfg.n_trials ≤ s.intensities.length then
    { s with finished := true }
  else s

/-- Lines 379-384: on a reversal with a variable step schedule, move to
the next step size (`self.step_sizes[-1]` past the end of the list). -/
def updateStepSize {α : Type} (rev : Bool) (s : Stair α) : Option (Stair α) :=
  if rev ∧ s.cfg.variable_step = true then
    (if s.cfg.step_sizes.length ≤ s.reversal_intensities.length then
      match s.cfg.step_sizes.getLast? with
      | none => none
      | some v => some { s with step_size_current := v }
    else
      match s.cfg.step_sizes.get? s.reversal_intensities.length with
      | none => none
      | some v => some { s with step_size_current := v })
  else some s

/-- Lines 385-393: the intensity update proper (`last` is `self.data[-1]`). -/
def applyIntensityRule {α : Type} [LinearOrder α] (last : Bool) (s : Stair α) : Stair α :=
  if s.reversal_intensities.isEmpty then
    (if last then intensityDec s else intensityInc s)
  else if s.cfg.n_down ≤ s.correct_counter then intensityDec s
  else if s.correct_counter ≤ -s.cfg.n_up then intensityInc s
  else s

/-- `Staircase.calculatenext_intensity` (lines 357-394); `self.data[-1]`
on an empty response history is an `IndexError`. -/
def calculatenextIntensity {α : Type} [LinearOrder α] (s : Stair α) : Option (Stair α) :=
  match s.data.getLast? with
  | none => none
  | some last =>
    let rd := computeReversal last s
    match recordReversal rd.1 { s with current_direction := rd.2 } with
    | none => none
    | some s2 =>
      match updateStepSize rd.1 (updateFinished s2) with
      | none => none
      | some s4 => some (applyIntensityRule last s4)

/-- `Staircase.add_response` (lines 332-355): append the boolean result,
apply an optional intensity override (`self.intensities.pop()` on an
empty history is an `IndexError`), update the signed streak counter from
`self.data[-2]`, then run `calculatenext_intensity`. -/
def addResponse {α : Type} [LinearOrder α] (s : Stair α) (result : Bool)
    (intensity : Option α) : Option (Stair α) :=
  let s1 := { s with data := s.data ++ [result] }
  let s2? : Option (Stair α) :=
    match intensity with
    | none => some s1
    | some i =>
      if s1.intensities.isEmpty then none
      else some { s1 with intensities := s1.intensities.dropLast ++ [i] }
  match s2? with
  | none => none
  | some s2 =>
    let onRun := 1 < s2.data.length ∧ s2.data.getD (s2.data.length - 2) (!result) = result
    let cc : ℤ :=
      if result then (if onRun then s2.correct_counter + 1 else 1)
      else (if onRun then s2.correct_counter - 1 else -1)
    calculatenextIntensity { s2 with correct_counter := cc }

/-- The standard driving loop `for trial in stairs: ...; stairs.add_response(r)`:
pull the next intensity, feed the next response from `rs`, and stop as
soon as the staircase raises `StopIteration` (remaining responses unused). -/
def runStaircase {α : Type} [LinearOrder α] (s : Stair α) : List Bool → Option (Stair α)
  | [] => some s
  | r :: rs =>
    match stairPull s with
    | none => some s
    | some (_, s1) =>
      match addResponse s1 r none with
      | none => none
      | some s2 => runStaircase s2 rs

/-- Arithmetic mean of a list of reals (`numpy.mean`). -/
noncomputable def listMeanR (l : List ℝ) : ℝ := l.sum / (l.length : ℝ)

/-- `Staircase.threshold` (lines 424-432): `None` before the staircase is
finished; otherwise `n` is clamped down to `self.n_reversals` (the
configured minimum reversal count) and the last `n` recorded reversal
intensities are averaged — geometric mean (`exp` of the mean of `log`s)
for method `"geometric"`, arithmetic mean otherwise.  `toR` injects the
abstract intensity values into the reals the averaging happens over. -/
noncomputable def threshold {α : Type} (toR : α → ℝ) (s : Stair α) (n : ℤ)
    (method : String) : Option ℝ :=
  if s.finished then
    let n' : ℤ := if (s.cfg.n_reversals : ℤ) < n then (s.cfg.n_reversals : ℤ) else n
    let sl := pySliceLast s.reversal_intensities n'
    if method = "geometric" then
      some (Real.exp (listMeanR (sl.map (fun q => Real.log (toR q)))))
    else some (listMeanR (sl.map toR))
  else none

/-- The dual stopping condition of line 377: enough recorded reversals
and enough presented intensities. -/
def stopCond {α : Type} (s : Stair α) : Prop :=
  s.cfg.n_reversals ≤ s.reversal_intensities.length ∧
  s.cfg.n_trials ≤ s.intensities.length

/-- `InB mn mx x`: `x` respects whichever of the optional bounds are
configured. -/
def InB {α : Type} [LE α] (mn mx : Option α) (x : α) : Prop :=
  (∀ a, mn = some a → a ≤ x) ∧ (∀ b, mx = some b → x ≤ b)

/-- A throwaway state used only to name the result of concrete
constructions via `Option.getD`. -/
def defaultStair : Stair ℤ :=
  { cfg :=
      { start_val := 0
        n_up := 1
        n_down := 2
        n_reversals := 1
        n_trials := 0
        step_sizes := [0]
        variable_step := false
        min_val := none
        max_val := none
        stepUp := fun _ x => x
        stepDown := fun _ x => x }
    finished := false
    this_trial_n := -1
    data := []
    intensities := []
    reversal_points := []
    reversal_intensities := []
    current_direction := Dir.down
    correct_counter := 0
    step_size_current := 0
    next_intensity := 0 }

/-- Concrete staircase for claims C1 and C3:
`Staircase(start_val=10, n_reversals=2, step_sizes=1, n_trials=9, n_up=1,
n_down=1, step_type='lin')` (integer-valued intensities). -/
def c3s0 : Stair ℤ :=
  (mkStaircase (10 : ℤ) (some 2) [1] 9 1 1 none none linStepInc linStepDec).getD defaultStair

/-- The C3 staircase driven by the alternating responses
`[1, 0, 1, 0, 1, 0, 1, 0, 1]`: it finishes on the 9th trial with 8
recorded reversals (alternating 9 and 10). -/
def c3s : Stair ℤ :=
  (runStaircase c3s0 [true, false, true, false, true, false, true, false, true]).getD
    defaultStair

/-- Concrete staircase for claim C1's witness:
`Staircase(start_val=50, step_sizes=4, n_trials=1, n_up=1, n_down=1)`. -/
def c1s0 : Stair ℤ :=
  (mkStaircase (50 : ℤ) none [4] 1 1 1 none none linStepInc linStepDec).getD defaultStair

/-- The C1 staircase after responses `[1, 0]` (finished: one reversal
recorded, two trials presented). -/
def c1s : Stair ℤ := (runStaircase c1s0 [true, false]).getD defaultStair

/-- Concrete staircase for claim C5's counterexample:
`Staircase(start_val=100, step_sizes=4, min_val=0, max_val=60,
step_type='lin')` — the start value lies above `max_val`. -/
def c5cex0 : Stair ℤ :=
  (mkStaircase (100 : ℤ) none [4] 0 1 2 (some 0) (some 60) linStepInc linStepDec).getD
    defaultStair

/-- Concrete staircase for claim C5's witness:
`Staircase(start_val=50, step_sizes=4, min_val=0, max_val=60, n_up=1,
n_down=1, step_type='lin')`. -/
def c5s0 : Stair ℤ :=
  (mkStaircase (50 : ℤ) none [4] 0 1 1 (some 0) (some 60) linStepInc linStepDec).getD
    defaultStair

/-- The C5 witness staircase after responses `[1, 1]`. -/
def c5s : Stair ℤ := (runStaircase c5s0 [true, true]).getD defaultStair

/-- Concrete staircase for claims C6 and C10 (part a): the C1
configuration after one pull (one intensity presented, no response yet). -/
def c6state : Stair ℤ := ((stairPull c1s0).map Prod.snd).getD defaultStair

/-- The concrete `Trialsequence(conditions=[10,20], trials=[0,1,0,1])` on
which `get_future_trial` contradicts its documented behaviour. -/
def c8state : TrialState := mkTrialseq [10, 20] 1 [0, 1, 0, 1]

/-! ## Helper lemmas: iteration of `__next__` -/

/-- One `__next__` call advances the total counter. -/
theorem tsNext_snd_this_n (s : TrialState) : (tsNext s).2.this_n = s.this_n + 1 := by
  unfold tsNext
  dsimp only
  split_ifs <;> (repeat' split) <;> rfl

/-- One `__next__` call never modifies the trial list. -/
theorem tsNext_snd_trials (s : TrialState) : (tsNext s).2.trials = s.trials := by
  unfold tsNext
  dsimp only
  split_ifs <;> (repeat' split) <;> rfl

/-- One `__next__` call never modifies the condition set. -/
theorem tsNext_snd_conditions (s : TrialState) : (tsNext s).2.conditions = s.conditions := by
  unfold tsNext
  dsimp only
  split_ifs <;> (repeat' split) <;> rfl

/-- After one `__next__` call the sequence is exhausted exactly when it
already was or the advanced total counter has reached the end of the
trial list. -/
theorem tsNext_snd_finished (s : TrialState) :
    ((tsNext s).2.finished = true ↔
      (s.finished = true ∨ (s.trials.length : ℤ) ≤ s.this_n + 1)) := by
  unfold tsNext
  dsimp only
  split_ifs <;> (repeat' split) <;> simp_all

/-- Fields of the state left by one `__next__` call. -/
theorem tsNext_snd_fields (s : TrialState) :
    (tsNext s).2.this_n = s.this_n + 1 ∧
    ((tsNext s).2.finished = true ↔
      (s.finished = true ∨ (s.trials.length : ℤ) ≤ s.this_n + 1)) ∧
    (tsNext s).2.trials = s.trials ∧ (tsNext s).2.conditions = s.conditions :=
  ⟨tsNext_snd_this_n s, tsNext_snd_finished s, tsNext_snd_trials s, tsNext_snd_conditions s⟩

/-- Cursor invariant after `k` pulls from a freshly constructed sequence. -/
theorem tsIterate_inv (conds trials : List ℕ) (nreps : ℕ) (k : ℕ) :
    (tsIterate (mkTrialseq conds nreps trials) k).this_n = (k : ℤ) - 1 ∧
    ((tsIterate (mkTrialseq conds nreps trials) k).finished = true ↔ trials.length < k) ∧
    (tsIterate (mkTrialseq conds nreps trials) k).trials = trials ∧
    (tsIterate (mkTrialseq conds nreps trials) k).conditions = conds := by
  induction k with
  | zero =>
    refine ⟨rfl, ?_, rfl, rfl⟩
    simp [tsIterate, mkTrialseq]
  | succ k ih =>
    obtain ⟨h1, h2, h3, h4⟩ := ih
    obtain ⟨g1, g2, g3, g4⟩ := tsNext_snd_fields (tsIterate (mkTrialseq conds nreps trials) k)
    refine ⟨?_, ?_, ?_, ?_⟩
    · rw [show tsIterate (mkTrialseq conds nreps trials) (k + 1) =
        (tsNext (tsIterate (mkTrialseq conds nreps trials) k)).2 from rfl, g1, h1]
      push_cast
      ring
    · rw [show tsIterate (mkTrialseq conds nreps trials) (k + 1) =
        (tsNext (tsIterate (mkTrialseq conds nreps trials) k)).2 from rfl, g2, h2, h1, h3]
      constructor
      · rintro (h | h) <;> omega
      · intro h
        omega
    · rw [show tsIterate (mkTrialseq conds nreps trials) (k + 1) =
        (tsNext (tsIterate (mkTrialseq conds nreps trials) k)).2 from rfl, g3, h3]
    · rw [show tsIterate (mkTrialseq conds nreps trials) (k + 1) =
        (tsNext (tsIterate (mkTrialseq conds nreps trials) k)).2 from rfl, g4, h4]

/-- Python indexing at a valid non-negative index returns a member of the list. -/
theorem pyGet_nonneg {α : Type} (l : List α) (i : ℤ) (h0 : 0 ≤ i) (h1 : i < l.length) :
    ∃ a, pyGet l i = some a ∧ a ∈ l := by
  have hlt : i.toNat < l.length := by omega
  refine ⟨l.get ⟨i.toNat, hlt⟩, ?_, List.get_mem l i.toNat hlt⟩
  unfold pyGet
  rw [if_neg (by omega)]
  exact List.get?_eq_get hlt

/-- A `__next__` call on a state whose advanced counter is past the end of
the trial list (or that is already exhausted) signals `StopIteration`. -/
theorem tsNext_fst_stop (s : TrialState)
    (h : (s.trials.length : ℤ) ≤ s.this_n + 1 ∨ s.finished = true) :
    (tsNext s).1 = PullResult.stop := by
  unfold tsNext
  dsimp only
  split_ifs <;> simp_all

/-- A `__next__` call on an unexhausted state with a valid next position
produces a trial drawn from the condition set. -/
theorem tsNext_fst_val (s : TrialState)
    (hfin : s.finished = false) (hn : 0 ≤ s.this_n + 1)
    (hlt : s.this_n + 1 < s.trials.length)
    (hval : ∀ x ∈ s.trials, x < s.conditions.length) :
    ∃ c, (tsNext s).1 = PullResult.val c ∧ c ∈ s.conditions := by
  obtain ⟨idx, hidx, hmem⟩ := pyGet_nonneg s.trials (s.this_n + 1) hn hlt
  obtain ⟨c, hc, hcmem⟩ :=
    pyGet_nonneg s.conditions (idx : ℤ) (by positivity) (by exact_mod_cast hval idx hmem)
  refine ⟨c, ?_, hcmem⟩
  unfold tsNext
  dsimp only
  split_ifs <;> simp_all <;> omega

/-- Claim C7: for every Trialsequence (any condition set, any trial-index
list whose entries index into it, any repetition count), each of the
first `n_trials` pulls of `__next__` returns a trial from the condition
set, and every pull from the `(n_trials+1)`-th on signals `StopIteration`
(never any other fault, and the sequence never resets). -/
theorem C7_iteration (conds trials : List ℕ) (nreps : ℕ)
    (hval : ∀ x ∈ trials, x < conds.length) :
    (∀ k < trials.length,
      ∃ c, pullAt (mkTrialseq conds nreps trials) k = PullResult.val c ∧ c ∈ conds) ∧
    (∀ k, trials.length ≤ k →
      pullAt (mkTrialseq conds nreps trials) k = PullResult.stop) := by
  constructor
  · intro k hk
    obtain ⟨h1, h2, h3, h4⟩ := tsIterate_inv conds trials nreps k
    have := tsNext_fst_val (tsIterate (mkTrialseq conds nreps trials) k)
      (by rw [Bool.eq_false_iff]; intro hf; exact absurd (h2.mp hf) (by omega))
      (by omega) (by rw [h1, h3]; omega)
      (by rw [h3, h4]; exact hval)
    rw [h4] at this
    exact this
  · intro k hk
    obtain ⟨h1, h2, h3, h4⟩ := tsIterate_inv conds trials nreps k
    exact tsNext_fst_stop _ (by rw [h1, h3]; left; omega)

/-- Witness for C7 at a concrete sequence: conditions `[3, 4]`, explicit
trials `[1, 0, 1]`; the 4th and 6th pulls both signal `StopIteration`. -/
theorem C7_iteration_witness :
    pullAt (mkTrialseq [3, 4] 1 [1, 0, 1]) 3 = PullResult.stop ∧
    pullAt (mkTrialseq [3, 4] 1 [1, 0, 1]) 5 = PullResult.stop :=
  ⟨(C7_iteration [3, 4] [1, 0, 1] 1 (by decide)).2 3 (by decide),
   (C7_iteration [3, 4] [1, 0, 1] 1 (by decide)).2 5 (by decide)⟩

/-- Claim C8 (failing-input evaluation): on a fresh
`Trialsequence(conditions=[10,20], trials=[0,1,0,1])`, `get_future_trial(1)`
returns the raw trial index `0`, while advancing once realizes the
condition `conditions[trials[0]] = 10` — so the lookahead value is not
the condition at the looked-ahead position. -/
theorem C8_code_eval :
    getFutureTrial c8state 1 = some 0 ∧
    (tsNext c8state).1 = PullResult.val 10 ∧
    getFutureTrial c8state 1 ≠ some 10 := by
  refine ⟨by decide, by decide, by decide⟩

/-! ## Helper lemmas: the sequence-construction algorithm -/

/-- What the rejection loop returns: some shuffle output whose first
element differs from the last element recorded so far (in particular the
accepted block is nonempty). -/
theorem csLoop_spec (oracle : ℕ → List ℕ) :
    ∀ fuel t lastOpt p t', csLoop oracle lastOpt fuel t = some (p, t') →
      (∃ u, p = oracle u) ∧ (∃ b, p.head? = some b) ∧ p.head? ≠ lastOpt := by
  intro fuel
  induction fuel with
  | zero =>
    intro t lastOpt p t' h
    simp [csLoop] at h
  | succ fuel ih =>
    intro t lastOpt p t' h
    unfold csLoop at h
    cases lastOpt with
    | none => simp at h
    | some a =>
      cases hb : (oracle t).head? with
      | none =>
        rw [hb] at h
        simp at h
      | some b =>
        rw [hb] at h
        dsimp only at h
        split_ifs at h with hba
        · exact ih (t + 1) (some a) p t' h
        · simp only [Option.some.injEq, Prod.mk.injEq] at h
          obtain ⟨hp, _⟩ := h
          subst hp
          refine ⟨⟨t, rfl⟩, ⟨b, hb⟩, ?_⟩
          rw [hb]
          simp [hba]

/-- What the repetition loop appends after the first block: a list of
blocks, each a permutation of the conditions, chained so that no block
starts with the element that ends its predecessor. -/
theorem csReps_spec (oracle : ℕ → List ℕ) (conds : List ℕ)
    (hperm : ∀ t, (oracle t).Perm conds) (fuel : ℕ) :
    ∀ r trials t out, csReps oracle fuel r trials t = some out →
      ∃ bs : List (List ℕ), out = trials ++ bs.flatten ∧ bs.length = r ∧
        (∀ b ∈ bs, b.Perm conds) ∧ Chained trials.getLast? bs := by
  intro r
  induction r with
  | zero =>
    intro trials t out h
    refine ⟨[], ?_, rfl, by simp, trivial⟩
    simpa [csReps] using h.symm
  | succ r ih =>
    intro trials t out h
    unfold csReps at h
    split at h
    · simp at h
    · rename_i p t' hcl
      obtain ⟨⟨u, hu⟩, ⟨b, hb⟩, hhead⟩ := csLoop_spec oracle fuel t _ p t' hcl
      obtain ⟨bs, hout, hlen, hbs, hch⟩ := ih (trials ++ p) t' out h
      have hpne : p ≠ [] := by
        intro hcon
        rw [hcon] at hb
        simp at hb
      refine ⟨p :: bs, ?_, by simp [hlen], ?_, hhead, ?_⟩
      · rw [hout]
        simp [List.append_assoc]
      · intro x hx
        rcases List.mem_cons.mp hx with hx | hx
        · subst hx
          exact hu ▸ hperm u
        · exact hbs x hx
      · rwa [List.getLast?_append_of_ne_nil trials hpne] at hch

/-- A chained block list has distinct last/first elements at every
consecutive block boundary. -/
theorem chained_pairs : ∀ (bs : List (List ℕ)) (lastOpt : Option ℕ), Chained lastOpt bs →
    ∀ k a b', (bs.getD k []).getLast? = some a →
      (bs.getD (k + 1) []).head? = some b' → b' ≠ a := by
  intro bs
  induction bs with
  | nil =>
    intro lastOpt _ k a b' ha _
    simp at ha
  | cons b0 bs ih =>
    intro lastOpt hch k a b' ha hb
    obtain ⟨_, hch'⟩ := hch
    cases k with
    | zero =>
      cases bs with
      | nil => simp at hb
      | cons b1 bs' =>
        obtain ⟨hh1, _⟩ := hch'
        intro hcon
        subst hcon
        simp only [List.getD_cons_zero, List.getD_cons_succ] at ha hb
        exact hh1 (hb.trans ha.symm)
    | succ k =>
      exact ih b0.getLast? hch' k a b' ha hb

/-- Claim C4: whenever the sequence-construction algorithm (with a
shuffle oracle producing permutations of a nonempty condition list, and
`n_reps ≥ 2`) terminates with a trial list, that list splits into
`n_reps` blocks, each a permutation of the conditions, and at every
boundary between consecutive repetition blocks the first element of the
later block differs from the last element of the earlier one. -/
theorem C4_no_boundary_repeat (conds : List ℕ) (oracle : ℕ → List ℕ) (nreps fuel : ℕ)
    (trials : List ℕ) (hperm : ∀ t, (oracle t).Perm conds) (hne : conds ≠ [])
    (hreps : 2 ≤ nreps) (h : createSimpleSequence oracle nreps fuel = some trials) :
    ∃ bs : List (List ℕ), trials = bs.flatten ∧ bs.length = nreps ∧
      (∀ b ∈ bs, b.Perm conds) ∧
      (∀ k a b', (bs.getD k []).getLast? = some a →
        (bs.getD (k + 1) []).head? = some b' → b' ≠ a) := by
  obtain ⟨r, rfl⟩ : ∃ r, nreps = r + 1 := ⟨nreps - 1, by omega⟩
  unfold createSimpleSequence at h
  obtain ⟨bs, hout, hlen, hbs, hch⟩ := csReps_spec oracle conds hperm fuel r (oracle 0) 1 trials h
  refine ⟨oracle 0 :: bs, ?_, by simp [hlen], ?_, ?_⟩
  · rw [hout]
    simp
  · intro b hb
    rcases List.mem_cons.mp hb with hb | hb
    · subst hb
      exact hperm 0
    · exact hbs b hb
  · apply chained_pairs (oracle 0 :: bs) none
    refine ⟨?_, hch⟩
    have h0 : oracle 0 ≠ [] := by
      intro hc
      have hp := hperm 0
      rw [hc] at hp
      exact hne (List.perm_nil.mp hp.symm)
    cases ho : oracle 0 with
    | nil => exact absurd ho h0
    | cons x xs => simp

/-- Witness for C4 at a concrete construction: conditions `[0, 1]`, the
oracle always returning `[0, 1]`, two repetitions. -/
theorem C4_no_boundary_repeat_witness :
    createSimpleSequence (fun _ => [0, 1]) 2 1 = some [0, 1, 0, 1] ∧
    (∃ bs : List (List ℕ), [0, 1, 0, 1] = bs.flatten ∧ bs.length = 2 ∧
      (∀ b ∈ bs, b.Perm [0, 1]) ∧
      (∀ k a b', (bs.getD k []).getLast? = some a →
        (bs.getD (k + 1) []).head? = some b' → b' ≠ a)) :=
  ⟨rfl, C4_no_boundary_repeat [0, 1] (fun _ => [0, 1]) 2 1 [0, 1, 0, 1]
    (fun _ => List.Perm.refl _) (by decide) (by decide) rfl⟩

/-- Claim C2 (failing-input evaluation): for
`Trialsequence(conditions=[5,7], n_reps=1)` the generated trial list is
the (shuffled) condition-value list `[5, 7]` itself — the condition
indices `0` and `1` each occur zero times instead of `n_reps = 1` times,
because `_create_simple_sequence` extends `self.trials` with the shuffled
condition values rather than with condition indices. -/
theorem C2_code_eval :
    createSimpleSequence (fun _ => [5, 7]) 1 1 = some [5, 7] ∧
    ([5, 7] : List ℕ).count 0 = 0 ∧ ([5, 7] : List ℕ).count 1 = 0 :=
  ⟨rfl, by decide, by decide⟩

/-! ## Helper lemmas: the oddball gap property -/

/-- Positions inside the leading zero run of a block read 0. -/
theorem nth_zeros_lt (m : ℕ) (L : List ℕ) (i : ℕ) (h : i < m) :
    nth (List.replicate m 0 ++ L) i = 0 := by
  unfold nth
  rw [List.getD_eq_getElem?_getD, List.getElem?_append]
  simp [List.getElem?_replicate, h]

/-- The position right after the zero run of a block reads its deviant 1. -/
theorem nth_deviant (m : ℕ) (T : List ℕ) :
    nth (List.replicate m 0 ++ ([1] ++ T)) m = 1 := by
  unfold nth
  rw [List.getD_eq_getElem?_getD, List.getElem?_append_right (by simp)]
  simp

/-- Positions past a whole block read the tail. -/
theorem nth_shift (m p : ℕ) (T : List ℕ) :
    nth (List.replicate m 0 ++ ([1] ++ T)) (m + 1 + p) = nth T p := by
  unfold nth
  rw [List.getD_eq_getElem?_getD, List.getD_eq_getElem?_getD,
    List.getElem?_append_right (by simp; omega)]
  have h1 : m + 1 + p - (List.replicate m 0).length = p + 1 := by simp; omega
  rw [h1, List.getElem?_append_right (by simp)]
  simp

/-- Concatenations of oddball blocks satisfy the gap property. -/
theorem gap_flatten : ∀ (bs : List (List ℕ)), (∀ b ∈ bs, IsBlock b) →
    GapProp bs.flatten := by
  intro bs
  induction bs with
  | nil =>
    intro _ i j _ hj _ _ _
    simp at hj
  | cons b bs ih =>
    intro hbl
    obtain ⟨m, hm3, hb⟩ := hbl b (by simp)
    have hbs : ∀ x ∈ bs, IsBlock x := fun x hx => hbl x (by simp [hx])
    have ihg := ih hbs
    intro i j hij hj hi1 hj1 hzero
    have hL : (b :: bs).flatten = List.replicate m 0 ++ ([1] ++ bs.flatten) := by
      rw [List.flatten_cons, hb, List.append_assoc]
    rw [hL] at hj hi1 hj1 hzero
    have hlenL : (List.replicate m 0 ++ ([1] ++ bs.flatten)).length
        = m + 1 + bs.flatten.length := by
      simp
      omega
    rcases lt_trichotomy i m with him | him | him
    · rw [nth_zeros_lt m _ i him] at hi1
      exact absurd hi1 (by omega)
    · subst him
      obtain ⟨p, rfl⟩ : ∃ p, j = i + 1 + p := ⟨j - (i + 1), by omega⟩
      rw [nth_shift] at hj1
      have hplen : p < bs.flatten.length := by omega
      have hzeros : ∀ q, q < p → nth bs.flatten q = 0 := by
        intro q hq
        have := hzero (i + 1 + q) (by omega) (by omega)
        rwa [nth_shift] at this
      cases bs with
      | nil => simp at hplen
      | cons b2 bs2 =>
        obtain ⟨m2, hm23, hb2⟩ := hbs b2 (by simp)
        have hF : (b2 :: bs2).flatten = List.replicate m2 0 ++ ([1] ++ bs2.flatten) := by
          rw [List.flatten_cons, hb2, List.append_assoc]
        rcases lt_trichotomy p m2 with hp | hp | hp
        · rw [hF, nth_zeros_lt m2 _ p hp] at hj1
          exact absurd hj1 (by omega)
        · subst hp
          right
          omega
        · have hcon := hzeros m2 hp
          rw [hF, nth_deviant] at hcon
          exact absurd hcon (by omega)
    · obtain ⟨pi, rfl⟩ : ∃ pi, i = m + 1 + pi := ⟨i - (m + 1), by omega⟩
      obtain ⟨pj, rfl⟩ : ∃ pj, j = m + 1 + pj := ⟨j - (m + 1), by omega⟩
      rw [nth_shift] at hi1 hj1
      have := ihg pi pj (by omega) (by omega) hi1 hj1 ?_
      · rcases this with h | h
        · left
          omega
        · right
          omega
      · intro q hq1 hq2
        have := hzero (m + 1 + q) (by omega) (by omega)
        rwa [nth_shift] at this

/-- The gap property is inherited by prefixes. -/
theorem gap_take (L : List ℕ) (n : ℕ) (h : GapProp L) : GapProp (L.take n) := by
  have hlen := List.length_take n L
  have hnth : ∀ k, k < n → nth (L.take n) k = nth L k := by
    intro k hk
    unfold nth
    rw [List.getD_eq_getElem?_getD, List.getD_eq_getElem?_getD, List.getElem?_take,
      if_pos hk]
  intro i j hij hj hi1 hj1 hzero
  have hjn : j < n := by omega
  have hjlen : j < L.length := by omega
  refine h i j hij hjlen ?_ ?_ ?_
  · rw [← hnth i (by omega)]
    exact hi1
  · rw [← hnth j hjn]
    exact hj1
  · intro k hik hkj
    rw [← hnth k (by omega)]
    exact hzero k hik hkj

/-- A concatenation of blocks of length at least 4 each has length at
least 4 per block. -/
theorem flatten_length_ge (L : List (List ℕ)) (h : ∀ b ∈ L, 4 ≤ b.length) :
    4 * L.length ≤ L.flatten.length := by
  induction L with
  | nil => simp
  | cons b bs ih =>
    have hb := h b (by simp)
    have ihb := ih (fun x hx => h x (by simp [hx]))
    simp only [List.flatten_cons, List.length_append, List.length_cons]
    omega

/-- `ceil(2/0.12 - 7) = 10` partial templates. -/
theorem mmnNPartials_val : mmnNPartials (12 / 100) = 10 := by
  unfold mmnNPartials
  rw [show (2 / (12 / 100 : ℚ) - 7) = 29 / 3 by norm_num]
  rw [show Int.ceil ((29 : ℚ) / 3) = 10 by
    rw [Int.ceil_eq_iff]
    norm_num]
  rfl

/-- `ceil(100/10) = 10` repetitions of the template-index list. -/
theorem mmnReps_val : mmnReps 100 (12 / 100) = 10 := by
  unfold mmnReps
  rw [mmnNPartials_val]
  rw [show ((100 : ℕ) : ℚ) / ((10 : ℕ) : ℚ) = 10 by norm_num]
  rw [show Int.ceil ((10 : ℚ)) = 10 from Int.ceil_intCast 10]
  rfl

theorem mmnIdxBase_val :
    mmnIdxBase 100 (12 / 100) = (List.replicate 10 (List.range 10)).flatten := by
  unfold mmnIdxBase
  rw [mmnReps_val, mmnNPartials_val]

/-- The template list realizes `(3+k)` standards followed by one deviant. -/
theorem mmnPartials_shape (k : ℕ) (hk : k < mmnNPartials (12 / 100)) :
    (mmnPartials (12 / 100)).getD k [] = List.replicate (3 + k) 0 ++ [1] := by
  unfold mmnPartials
  rw [List.getD_eq_getElem?_getD, List.getElem?_map]
  rw [mmnNPartials_val] at hk ⊢
  simp [List.getElem?_range, hk]

/-- Claim C9: for deviant frequency `0.12` and 100 requested trials, the
number of partial templates is `ceil(2/0.12 - 7) = 10` with template `k`
being `(3+k)` standards then one deviant, and for every shuffle of the
template-index list the produced sequence has exactly 100 entries, all
of them 0 or 1, with every run of 0s between two 1s of length ≥ 3. -/
theorem C9_mmn (idxs : List ℕ) (hperm : idxs.Perm (mmnIdxBase 100 (12 / 100))) :
    (mmnTrials 100 (12 / 100) idxs).length = 100 ∧
    (∀ x ∈ mmnTrials 100 (12 / 100) idxs, x = 0 ∨ x = 1) ∧
    GapProp (mmnTrials 100 (12 / 100) idxs) ∧
    mmnNPartials (12 / 100) = 10 ∧
    (∀ k, k < mmnNPartials (12 / 100) →
      (mmnPartials (12 / 100)).getD k [] = List.replicate (3 + k) 0 ++ [1]) := by
  have hlen : idxs.length = 100 := by
    rw [hperm.length_eq, mmnIdxBase_val]
    rfl
  have hmem : ∀ x ∈ idxs, x < 10 := by
    intro x hx
    have hx' := hperm.mem_iff.mp hx
    rw [mmnIdxBase_val] at hx'
    simp only [List.mem_flatten, List.mem_replicate] at hx'
    obtain ⟨b, ⟨_, rfl⟩, hxb⟩ := hx'
    exact List.mem_range.mp hxb
  have hblocks : ∀ i ∈ idxs,
      (mmnPartials (12 / 100)).getD i [] = List.replicate (3 + i) 0 ++ [1] := by
    intro i hi
    exact mmnPartials_shape i (by rw [mmnNPartials_val]; exact hmem i hi)
  have hIsBlock : ∀ b ∈ idxs.map (fun i => (mmnPartials (12 / 100)).getD i []), IsBlock b := by
    intro b hb
    obtain ⟨i, hi, rfl⟩ := List.mem_map.mp hb
    exact ⟨3 + i, by omega, hblocks i hi⟩
  have hlen4 : ∀ b ∈ idxs.map (fun i => (mmnPartials (12 / 100)).getD i []), 4 ≤ b.length := by
    intro b hb
    obtain ⟨m, _, rfl⟩ := hIsBlock b hb
    simp
    omega
  have hflatlen :
      400 ≤ ((idxs.map (fun i => (mmnPartials (12 / 100)).getD i [])).flatten).length := by
    have h1 := flatten_length_ge _ hlen4
    have h2 : (idxs.map (fun i => (mmnPartials (12 / 100)).getD i [])).length = 100 := by
      rw [List.length_map, hlen]
    omega
  refine ⟨?_, ?_, ?_, mmnNPartials_val, fun k hk => mmnPartials_shape k hk⟩
  · unfold mmnTrials
    rw [List.length_take]
    omega
  · intro x hx
    have hx' := List.mem_of_mem_take hx
    obtain ⟨b, hb, hxb⟩ := List.mem_flatten.mp hx'
    obtain ⟨m, _, rfl⟩ := hIsBlock b hb
    rcases List.mem_append.mp hxb with hxs | hxs
    · left
      exact (List.eq_of_mem_replicate hxs)
    · right
      simpa using hxs
  · exact gap_take _ 100 (gap_flatten _ hIsBlock)

/-- Witness for C9: the identity shuffle of the template-index list. -/
theorem C9_mmn_witness :
    (mmnTrials 100 (12 / 100) (mmnIdxBase 100 (12 / 100))).length = 100 ∧
    GapProp (mmnTrials 100 (12 / 100) (mmnIdxBase 100 (12 / 100))) :=
  ⟨(C9_mmn (mmnIdxBase 100 (12 / 100)) (List.Perm.refl _)).1,
   (C9_mmn (mmnIdxBase 100 (12 / 100)) (List.Perm.refl _)).2.2.1⟩

/-! ## Helper lemmas: `Staircase` state transitions -/

/-- `_intensity_inc` only changes the next intensity and the streak counter. -/
theorem intensityInc_proj {α : Type} [LinearOrder α] (s : Stair α) :
    (intensityInc s).cfg = s.cfg ∧ (intensityInc s).finished = s.finished ∧
    (intensityInc s).data = s.data ∧ (intensityInc s).intensities = s.intensities ∧
    (intensityInc s).reversal_intensities = s.reversal_intensities ∧
    (intensityInc s).current_direction = s.current_direction :=
  ⟨rfl, rfl, rfl, rfl, rfl, rfl⟩

/-- `_intensity_dec` only changes the next intensity and the streak counter. -/
theorem intensityDec_proj {α : Type} [LinearOrder α] (s : Stair α) :
    (intensityDec s).cfg = s.cfg ∧ (intensityDec s).finished = s.finished ∧
    (intensityDec s).data = s.data ∧ (intensityDec s).intensities = s.intensities ∧
    (intensityDec s).reversal_intensities = s.reversal_intensities ∧
    (intensityDec s).current_direction = s.current_direction :=
  ⟨rfl, rfl, rfl, rfl, rfl, rfl⟩

/-- The final intensity-update dispatch leaves everything but the next
intensity and the streak counter unchanged. -/
theorem applyIntensityRule_proj {α : Type} [LinearOrder α] (last : Bool) (s : Stair α) :
    (applyIntensityRule last s).cfg = s.cfg ∧
    (applyIntensityRule last s).finished = s.finished ∧
    (applyIntensityRule last s).data = s.data ∧
    (applyIntensityRule last s).intensities = s.intensities ∧
    (applyIntensityRule last s).reversal_intensities = s.reversal_intensities ∧
    (applyIntensityRule last s).current_direction = s.current_direction := by
  unfold applyIntensityRule
  split_ifs <;> exact ⟨rfl, rfl, rfl, rfl, rfl, rfl⟩

/-- Reversal bookkeeping: on success everything is preserved except the
reversal logs, which only grow (by one when a reversal was declared). -/
theorem recordReversal_spec {α : Type} (rev : Bool) (s s' : Stair α)
    (h : recordReversal rev s = some s') :
    s'.cfg = s.cfg ∧ s'.finished = s.finished ∧ s'.data = s.data ∧
    s'.intensities = s.intensities ∧ s'.current_direction = s.current_direction ∧
    s'.correct_counter = s.correct_counter ∧ s'.next_intensity = s.next_intensity ∧
    s'.reversal_intensities.length =
      s.reversal_intensities.length + (if rev then 1 else 0) := by
  unfold recordReversal at h
  split_ifs at h with hrev
  · cases hli : s.intensities.getLast? with
    | none =>
      rw [hli] at h
      simp at h
    | some li =>
      rw [hli] at h
      obtain rfl := Option.some.inj h
      simp [hrev]
  · obtain rfl := Option.some.inj h
    simp [hrev]

/-- The stopping-rule update: everything except the finished flag is
untouched, and afterwards the staircase is finished exactly when it was
already or the dual stopping condition holds. -/
theorem updateFinished_spec {α : Type} (s : Stair α) :
    (updateFinished s).cfg = s.cfg ∧ (updateFinished s).data = s.data ∧
    (updateFinished s).intensities = s.intensities ∧
    (updateFinished s).reversal_intensities = s.reversal_intensities ∧
    (updateFinished s).current_direction = s.current_direction ∧
    (updateFinished s).correct_counter = s.correct_counter ∧
    (updateFinished s).next_intensity = s.next_intensity ∧
    ((updateFinished s).finished = true ↔ (s.finished = true ∨ stopCond s)) := by
  unfold updateFinished stopCond
  split_ifs with hc
  · exact ⟨rfl, rfl, rfl, rfl, rfl, rfl, rfl, by simp [hc]⟩
  · exact ⟨rfl, rfl, rfl, rfl, rfl, rfl, rfl, by simp [hc]⟩

/-- The step-size schedule update: on success only the current step size
changes. -/
theorem updateStepSize_spec {α : Type} (rev : Bool) (s s' : Stair α)
    (h : updateStepSize rev s = some s') :
    s'.cfg = s.cfg ∧ s'.finished = s.finished ∧ s'.data = s.data ∧
    s'.intensities = s.intensities ∧
    s'.reversal_intensities = s.reversal_intensities ∧
    s'.current_direction = s.current_direction ∧
    s'.correct_counter = s.correct_counter ∧
    s'.next_intensity = s.next_intensity := by
  unfold updateStepSize at h
  split_ifs at h with h1 h2
  · cases hv : s.cfg.step_sizes.getLast? with
    | none =>
      rw [hv] at h
      simp at h
    | some v =>
      rw [hv] at h
      obtain rfl := Option.some.inj h
      exact ⟨rfl, rfl, rfl, rfl, rfl, rfl, rfl, rfl⟩
  · cases hv : s.cfg.step_sizes.get? s.reversal_intensities.length with
    | none =>
      rw [hv] at h
      simp at h
    | some v =>
      rw [hv] at h
      obtain rfl := Option.some.inj h
      exact ⟨rfl, rfl, rfl, rfl, rfl, rfl, rfl, rfl⟩
  · obtain rfl := Option.some.inj h
    exact ⟨rfl, rfl, rfl, rfl, rfl, rfl, rfl, rfl⟩

/-- `calculatenext_intensity` on success: responses and intensities are
untouched, the reversal log only grows, and afterwards the staircase is
finished exactly when it was already or the stopping condition holds on
the updated state. -/
theorem calculatenextIntensity_spec {α : Type} [LinearOrder α] (s s' : Stair α)
    (h : calculatenextIntensity s = some s') :
    s'.cfg = s.cfg ∧ s'.data = s.data ∧ s'.intensities = s.intensities ∧
    s.reversal_intensities.length ≤ s'.reversal_intensities.length ∧
    (s'.finished = true ↔ (s.finished = true ∨ stopCond s')) := by
  unfold calculatenextIntensity at h
  cases hlast : s.data.getLast? with
  | none =>
    rw [hlast] at h
    simp at h
  | some last =>
    rw [hlast] at h
    dsimp only at h
    cases hrec : recordReversal (computeReversal last s).1
        { s with current_direction := (computeReversal last s).2 } with
    | none =>
      rw [hrec] at h
      simp at h
    | some s2 =>
      rw [hrec] at h
      dsimp only at h
      cases hstep : updateStepSize (computeReversal last s).1 (updateFinished s2) with
      | none =>
        rw [hstep] at h
        simp at h
      | some s4 =>
        rw [hstep] at h
        dsimp only at h
        obtain rfl := Option.some.inj h
        obtain ⟨r1, r2, r3, r4, r5, r6, r7, r8⟩ := recordReversal_spec _ _ _ hrec
        obtain ⟨u1, u2, u3, u4, u5, u6, u7, u8⟩ := updateFinished_spec s2
        obtain ⟨v1, v2, v3, v4, v5, v6, v7, v8⟩ := updateStepSize_spec _ _ _ hstep
        obtain ⟨a1, a2, a3, a4, a5, a6⟩ := applyIntensityRule_proj last s4
        refine ⟨?_, ?_, ?_, ?_, ?_⟩
        · rw [a1, v1, u1, r1]
        · rw [a3, v3, u2, r3]
        · rw [a4, v4, u3, r4]
        · rw [a5, v5, u4, r8]
          dsimp only
          split_ifs <;> omega
        · rw [a2, v2]
          rw [u8, r2]
          have hsc : stopCond s2 ↔ stopCond (applyIntensityRule last s4) := by
            unfold stopCond
            rw [a1, v1, u1, a4, v4, u3, a5, v5, u4]
          rw [hsc]

/-- `add_response` on success (without an intensity override): the
configuration and the intensity history are untouched, the reversal log
only grows, and the staircase ends up finished exactly when it was
already or the stopping condition holds afterwards. -/
theorem addResponse_none_spec {α : Type} [LinearOrder α] (s s' : Stair α) (r : Bool)
    (h : addResponse s r none = some s') :
    s'.cfg = s.cfg ∧ s'.intensities = s.intensities ∧
    s.reversal_intensities.length ≤ s'.reversal_intensities.length ∧
    (s'.finished = true ↔ (s.finished = true ∨ stopCond s')) := by
  unfold addResponse at h
  dsimp only at h
  obtain ⟨c1, c2, c3, c4, c5⟩ := calculatenextIntensity_spec _ _ h
  exact ⟨c1, c3, c4, c5⟩

/-- `__init__` output: fresh run state, all histories empty, the
configuration as passed (with the minimum reversal count normalized up
to at least 1, since the step-size list is nonempty). -/
theorem mkStaircase_spec {α : Type} (start : α) (nRevs : Option ℕ) (stepSizes : List α)
    (nTrials : ℕ) (nUp nDown : ℤ) (minVal maxVal : Option α) (fUp fDown : α → α → α)
    (s0 : Stair α)
    (h : mkStaircase start nRevs stepSizes nTrials nUp nDown minVal maxVal fUp fDown
      = some s0) :
    s0.finished = false ∧ s0.data = [] ∧ s0.intensities = [] ∧
    s0.reversal_intensities = [] ∧ s0.current_direction = Dir.down ∧
    s0.next_intensity = start ∧ 1 ≤ s0.cfg.n_reversals ∧
    s0.cfg.n_trials = nTrials ∧ s0.cfg.n_up = nUp ∧ s0.cfg.n_down = nDown ∧
    s0.cfg.min_val = minVal ∧ s0.cfg.max_val = maxVal ∧
    s0.cfg.stepUp = fUp ∧ s0.cfg.stepDown = fDown ∧ s0.cfg.step_sizes = stepSizes := by
  cases stepSizes with
  | nil => simp [mkStaircase] at h
  | cons a rest =>
    unfold mkStaircase at h
    dsimp only at h
    obtain rfl := Option.some.inj h
    refine ⟨rfl, rfl, rfl, rfl, rfl, rfl, ?_, rfl, rfl, rfl, rfl, rfl, rfl, rfl, rfl⟩
    dsimp only
    cases nRevs with
    | none => simp
    | some n =>
      dsimp only
      split_ifs with hn
      · simp
      · simp at hn
        omega

/-- A pull on an unfinished staircase returns the pending intensity and
appends it to the history, leaving everything else but the trial counter
unchanged. -/
theorem stairPull_spec {α : Type} (s : Stair α) (h : s.finished = false) :
    stairPull s = some (s.next_intensity,
      { s with this_trial_n := s.this_trial_n + 1
               intensities := s.intensities ++ [s.next_intensity] }) := by
  unfold stairPull
  rw [if_neg (by simp [h])]

/-- The driving loop preserves the configuration and the equivalence
"finished exactly when the stopping condition holds". -/
theorem runStaircase_inv {α : Type} [LinearOrder α] :
    ∀ (rs : List Bool) (s s' : Stair α), (s.finished = true ↔ stopCond s) →
      runStaircase s rs = some s' →
      ((s'.finished = true ↔ stopCond s') ∧ s'.cfg = s.cfg) := by
  intro rs
  induction rs with
  | nil =>
    intro s s' hinv h
    obtain rfl := Option.some.inj h
    exact ⟨hinv, rfl⟩
  | cons r rs ih =>
    intro s s' hinv h
    unfold runStaircase at h
    cases hfin : s.finished with
    | true =>
      rw [show stairPull s = none by unfold stairPull; rw [if_pos (by simp [hfin])]] at h
      dsimp only at h
      obtain rfl := Option.some.inj h
      exact ⟨hinv, rfl⟩
    | false =>
      rw [stairPull_spec s hfin] at h
      dsimp only at h
      cases hadd : addResponse
          { s with this_trial_n := s.this_trial_n + 1
                   intensities := s.intensities ++ [s.next_intensity] } r none with
      | none =>
        rw [hadd] at h
        simp at h
      | some s2 =>
        rw [hadd] at h
        dsimp only at h
        obtain ⟨a1, _, _, a4⟩ := addResponse_none_spec _ _ _ hadd
        have hinv2 : s2.finished = true ↔ stopCond s2 := by
          rw [a4]
          constructor
          · rintro (hf | hc)
            · exact absurd hf (by simp [hfin])
            · exact hc
          · exact fun hc => Or.inr hc
        obtain ⟨i1, i2⟩ := ih s2 s' hinv2 h
        exact ⟨i1, by rw [i2, a1]⟩

/-- Claim C1: for every staircase built by `__init__` and driven by the
standard pull/respond loop, after the run the finished flag is set
exactly when both stopping conditions hold — at least `n_reversals`
recorded reversals and at least `n_trials` presented intensities; while
either fails the staircase is not finished. -/
theorem C1_finished_iff {α : Type} [LinearOrder α] (start : α) (nRevs : Option ℕ)
    (stepSizes : List α) (nTrials : ℕ) (nUp nDown : ℤ) (minVal maxVal : Option α)
    (fUp fDown : α → α → α) (rs : List Bool) (s0 s : Stair α)
    (hmk : mkStaircase start nRevs stepSizes nTrials nUp nDown minVal maxVal fUp fDown
      = some s0)
    (hrun : runStaircase s0 rs = some s) :
    s.finished = true ↔
      (s.cfg.n_reversals ≤ s.reversal_intensities.length ∧
       s.cfg.n_trials ≤ s.intensities.length) := by
  obtain ⟨m1, _, m3, m4, _, _, m7, _⟩ := mkStaircase_spec _ _ _ _ _ _ _ _ _ _ _ hmk
  have hbase : s0.finished = true ↔ stopCond s0 := by
    rw [m1]
    unfold stopCond
    rw [m4]
    simp
    omega
  exact (runStaircase_inv rs s0 s hbase hrun).1

/-- Witness for C1: the C1 staircase finishes after responses `[1, 0]`
with one recorded reversal (= `n_reversals`) and two presented trials
(≥ `n_trials = 1`). -/
theorem C1_finished_iff_witness :
    c1s.finished = true ∧ c1s.cfg.n_reversals ≤ c1s.reversal_intensities.length ∧
    c1s.cfg.n_trials ≤ c1s.intensities.length := by
  have hiff := C1_finished_iff (50 : ℤ) none [4] 1 1 1 none none linStepInc linStepDec
    [true, false] c1s0 c1s rfl rfl
  have hfin : c1s.finished = true := by decide
  exact ⟨hfin, (hiff.mp hfin).1, (hiff.mp hfin).2⟩

/-- The reversal-bookkeeping step cannot fail when at least one intensity
has been presented. -/
theorem recordReversal_total {α : Type} (rev : Bool) (s : Stair α)
    (hint : s.intensities ≠ []) : ∃ s', recordReversal rev s = some s' := by
  unfold recordReversal
  split_ifs with h1
  · cases hli : s.intensities.getLast? with
    | none => exact absurd (List.getLast?_eq_none_iff.mp hli) hint
    | some li => exact ⟨_, rfl⟩
  · exact ⟨s, rfl⟩

/-- The step-size-schedule update cannot fail when the step-size list is
nonempty. -/
theorem updateStepSize_total {α : Type} (rev : Bool) (s : Stair α)
    (hsteps : s.cfg.step_sizes ≠ []) : ∃ s', updateStepSize rev s = some s' := by
  unfold updateStepSize
  split_ifs with h1 h2
  · cases hl : s.cfg.step_sizes.getLast? with
    | none => exact absurd (List.getLast?_eq_none_iff.mp hl) hsteps
    | some v => exact ⟨_, rfl⟩
  · cases hl : s.cfg.step_sizes.get? s.reversal_intensities.length with
    | none =>
      rw [List.get?_eq_none] at hl
      omega
    | some v => exact ⟨_, rfl⟩
  · exact ⟨s, rfl⟩

/-- `calculatenext_intensity` cannot fail when a response and an intensity
have been recorded and the step-size list is nonempty. -/
theorem calculatenextIntensity_total {α : Type} [LinearOrder α] (s : Stair α)
    (hdata : s.data ≠ []) (hint : s.intensities ≠ [])
    (hsteps : s.cfg.step_sizes ≠ []) :
    (calculatenextIntensity s).isSome = true := by
  unfold calculatenextIntensity
  cases hlast : s.data.getLast? with
  | none => exact absurd (List.getLast?_eq_none_iff.mp hlast) hdata
  | some last =>
    dsimp only
    obtain ⟨s2, hrec⟩ := recordReversal_total (computeReversal last s).1
      { s with current_direction := (computeReversal last s).2 } hint
    rw [hrec]
    dsimp only
    obtain ⟨r1, _⟩ := recordReversal_spec _ _ _ hrec
    obtain ⟨s4, hstep⟩ := updateStepSize_total (computeReversal last s).1
      (updateFinished s2) (by rw [(updateFinished_spec s2).1, r1]; exact hsteps)
    rw [hstep]
    rfl

/-- Claim C10: `add_response` never pops from or indexes into an empty
list as long as an intensity has been presented (the intensity history is
nonempty when the response is processed); called on a freshly
constructed staircase — before any trial has been pulled — it fails
(`IndexError`, modelled as `none`) both when an override intensity is
supplied (empty-list `pop`) and when the first response is incorrect
(reversal recording indexes `self.intensities[-1]` on an empty list). -/
theorem C10_safety {α : Type} [LinearOrder α] :
    (∀ (s : Stair α) (r : Bool) (o : Option α), s.intensities ≠ [] →
      s.cfg.step_sizes ≠ [] → (addResponse s r o).isSome = true) ∧
    (∀ (start : α) (nRevs : Option ℕ) (stepSizes : List α) (nTrials : ℕ)
        (nUp nDown : ℤ) (minVal maxVal : Option α) (fUp fDown : α → α → α)
        (s0 : Stair α) (i : α) (r : Bool),
      mkStaircase start nRevs stepSizes nTrials nUp nDown minVal maxVal fUp fDown
        = some s0 →
      addResponse s0 r (some i) = none ∧ addResponse s0 false none = none) := by
  constructor
  · intro s r o hint hsteps
    unfold addResponse
    dsimp only
    cases o with
    | none =>
      dsimp only
      exact calculatenextIntensity_total _ (by simp) hint hsteps
    | some i =>
      dsimp only
      rw [if_neg (by simp [hint])]
      dsimp only
      refine calculatenextIntensity_total _ (by simp) ?_ hsteps
      simp
  · intro start nRevs stepSizes nTrials nUp nDown minVal maxVal fUp fDown s0 i r hmk
    obtain ⟨_, m2, m3, m4, m5, _⟩ := mkStaircase_spec _ _ _ _ _ _ _ _ _ _ _ hmk
    constructor
    · unfold addResponse
      dsimp only
      rw [if_pos (by simp [m3])]
    · simp [addResponse, calculatenextIntensity, computeReversal, recordReversal,
        m2, m3, m4, m5]

/-- Witness for C10: on the C1 staircase after one pull, `add_response`
succeeds; on the freshly constructed staircase, an override intensity or
an incorrect first response makes `add_response` fail. -/
theorem C10_safety_witness :
    (addResponse c6state true none).isSome = true ∧
    addResponse c1s0 true (some 5) = none ∧
    addResponse c1s0 false none = none :=
  ⟨(C10_safety (α := ℤ)).1 c6state true none (by decide) (by decide),
   ((C10_safety (α := ℤ)).2 50 none [4] 1 1 1 none none linStepInc linStepDec
      c1s0 5 true rfl).1,
   ((C10_safety (α := ℤ)).2 50 none [4] 1 1 1 none none linStepInc linStepDec
      c1s0 5 true rfl).2⟩

/-- Before the first reversal, a response that contradicts the current
direction is classified as a reversal and flips the direction, whatever
`n_up`/`n_down` are (lines 359-365). -/
theorem computeReversal_first {α : Type} (s : Stair α) (r : Bool)
    (hrev : s.reversal_intensities = [])
    (hdir : s.current_direction = (if r then Dir.up else Dir.down)) :
    computeReversal r s = (true, if r then Dir.down else Dir.up) := by
  cases r <;>
    · unfold computeReversal
      rw [hrev]
      simp [hdir]

/-- `calculatenext_intensity` on a pre-reversal state whose last response
contradicts the current direction: it succeeds, records exactly one
reversal, and flips the direction. -/
theorem calc_first_reversal {α : Type} [LinearOrder α] (s : Stair α) (r : Bool)
    (hrev : s.reversal_intensities = []) (hint : s.intensities ≠ [])
    (hsteps : s.cfg.step_sizes ≠ []) (hlast : s.data.getLast? = some r)
    (hdir : s.current_direction = (if r then Dir.up else Dir.down)) :
    ∃ s', calculatenextIntensity s = some s' ∧
      s'.reversal_intensities.length = 1 ∧
      s'.current_direction = (if r then Dir.down else Dir.up) := by
  unfold calculatenextIntensity
  rw [hlast]
  dsimp only
  rw [computeReversal_first s r hrev hdir]
  dsimp only
  set sd := { s with current_direction := if r then Dir.down else Dir.up } with hsd
  obtain ⟨s2, hrec⟩ := recordReversal_total true sd hint
  rw [hrec]
  dsimp only
  obtain ⟨r1, _, _, _, r5, _, _, r8⟩ := recordReversal_spec true sd s2 hrec
  obtain ⟨s4, hstep⟩ := updateStepSize_total true (updateFinished s2)
    (by rw [(updateFinished_spec s2).1, r1]; exact hsteps)
  rw [hstep]
  dsimp only
  obtain ⟨a1, a2, a3, a4, a5, a6⟩ := applyIntensityRule_proj r s4
  obtain ⟨v1, v2, v3, v4, v5, v6, v7, v8⟩ := updateStepSize_spec true (updateFinished s2) s4 hstep
  obtain ⟨u1, u2, u3, u4, u5, u6, u7, u8⟩ := updateFinished_spec s2
  refine ⟨applyIntensityRule r s4, rfl, ?_, ?_⟩
  · rw [a5, v5, u4, r8]
    simp [hsd, hrev]
  · rw [a6, v6, u5, r5]

/-- `add_response` on a pre-reversal state whose response contradicts the
current direction: success, one recorded reversal, flipped direction. -/
theorem addResponse_first_reversal {α : Type} [LinearOrder α] (s : Stair α) (r : Bool)
    (hrev : s.reversal_intensities = []) (hint : s.intensities ≠ [])
    (hsteps : s.cfg.step_sizes ≠ [])
    (hdir : s.current_direction = (if r then Dir.up else Dir.down)) :
    ∃ s', addResponse s r none = some s' ∧
      s'.reversal_intensities.length = 1 ∧
      s'.current_direction = (if r then Dir.down else Dir.up) := by
  unfold addResponse
  dsimp only
  exact calc_first_reversal _ r hrev hint hsteps (List.getLast?_concat _) hdir

/-- Claim C6: for every staircase state before any recorded reversal
(whatever the configured `n_up` and `n_down`), an incorrect response
while the direction is 'down' declares a reversal and flips the direction
to 'up', and a correct response while the direction is 'up' declares a
reversal and flips it to 'down' — strict 1-up/1-down behavior before the
first reversal. -/
theorem C6_pre_reversal {α : Type} [LinearOrder α] (s : Stair α)
    (hrev : s.reversal_intensities = []) (hint : s.intensities ≠ [])
    (hsteps : s.cfg.step_sizes ≠ []) :
    (s.current_direction = Dir.down →
      ∃ s', addResponse s false none = some s' ∧
        s'.reversal_intensities.length = 1 ∧ s'.current_direction = Dir.up) ∧
    (s.current_direction = Dir.up →
      ∃ s', addResponse s true none = some s' ∧
        s'.reversal_intensities.length = 1 ∧ s'.current_direction = Dir.down) :=
  ⟨fun hdir => addResponse_first_reversal s false hrev hint hsteps hdir,
   fun hdir => addResponse_first_reversal s true hrev hint hsteps hdir⟩

/-- Witness for C6: the C1 staircase after one pull (direction 'down', no
reversals): an incorrect response records one reversal and flips the
direction to 'up'. -/
theorem C6_pre_reversal_witness :
    (addResponse c6state false none).map
      (fun t => (t.reversal_intensities.length, t.current_direction)) =
      some (1, Dir.up) := by
  obtain ⟨s', h1, h2, h3⟩ :=
    (C6_pre_reversal c6state (by decide) (by decide) (by decide)).1 (by decide)
  rw [h1]
  simp [h2, h3]

/-! ## Helper lemmas: staircase intensity bounds (claim C5) -/

theorem getLast?_mem_list {α : Type} {l : List α} {v : α} (hv : l.getLast? = some v) :
    v ∈ l := by
  obtain ⟨h, hx⟩ := List.mem_getLast?_eq_getLast (x := v) hv
  rw [hx]
  exact List.getLast_mem h

/-- The step-size-schedule update keeps the current step size inside the
configured step-size list (or unchanged). -/
theorem updateStepSize_mem {α : Type} (rev : Bool) (s s' : Stair α)
    (h : updateStepSize rev s = some s') :
    s'.step_size_current = s.step_size_current ∨
      s'.step_size_current ∈ s.cfg.step_sizes := by
  unfold updateStepSize at h
  split_ifs at h with h1 h2
  · cases hv : s.cfg.step_sizes.getLast? with
    | none =>
      rw [hv] at h
      simp at h
    | some v =>
      rw [hv] at h
      obtain rfl := Option.some.inj h
      exact Or.inr (getLast?_mem_list hv)
  · cases hv : s.cfg.step_sizes.get? s.reversal_intensities.length with
    | none =>
      rw [hv] at h
      simp at h
    | some v =>
      rw [hv] at h
      obtain rfl := Option.some.inj h
      exact Or.inr (List.get?_mem hv)
  · obtain rfl := Option.some.inj h
    exact Or.inl rfl

/-- Reversal bookkeeping does not touch the current step size. -/
theorem recordReversal_step {α : Type} (rev : Bool) (s s' : Stair α)
    (h : recordReversal rev s = some s') :
    s'.step_size_current = s.step_size_current := by
  unfold recordReversal at h
  split_ifs at h with hrev
  · cases hli : s.intensities.getLast? with
    | none =>
      rw [hli] at h
      simp at h
    | some li =>
      rw [hli] at h
      obtain rfl := Option.some.inj h
      rfl
  · obtain rfl := Option.some.inj h
    rfl

/-- The stopping-rule update does not touch the current step size. -/
theorem updateFinished_step {α : Type} (s : Stair α) :
    (updateFinished s).step_size_current = s.step_size_current := by
  unfold updateFinished
  split_ifs <;> rfl

/-- The intensity-update dispatch does not touch the current step size. -/
theorem applyIntensityRule_step {α : Type} [LinearOrder α] (last : Bool) (s : Stair α) :
    (applyIntensityRule last s).step_size_current = s.step_size_current := by
  unfold applyIntensityRule intensityInc intensityDec
  split_ifs <;> rfl

/-- `_intensity_inc`: if the raw step at the current step size does not
decrease the intensity, the clamped result stays within the configured
bounds (assuming the bounds are compatible). -/
theorem intensityInc_bounds {α : Type} [LinearOrder α] (s : Stair α)
    (hU : s.next_intensity ≤ s.cfg.stepUp s.step_size_current s.next_intensity)
    (hcomp : ∀ a b, s.cfg.min_val = some a → s.cfg.max_val = some b → a ≤ b)
    (hx : InB s.cfg.min_val s.cfg.max_val s.next_intensity) :
    InB s.cfg.min_val s.cfg.max_val (intensityInc s).next_intensity := by
  obtain ⟨hlo, hhi⟩ := hx
  unfold intensityInc InB
  dsimp only
  refine ⟨fun a ha => ?_, fun b hb => ?_⟩
  · cases hmx : s.cfg.max_val with
    | none =>
      dsimp only
      exact le_trans (hlo a ha) hU
    | some m =>
      dsimp only
      split_ifs with hm
      · exact hcomp a m ha hmx
      · exact le_trans (hlo a ha) hU
  · rw [hb]
    dsimp only
    split_ifs with hm
    · exact le_refl b
    · exact le_of_not_lt hm

/-- `_intensity_dec`: if the raw step at the current step size does not
increase the intensity, the clamped result stays within the configured
bounds. -/
theorem intensityDec_bounds {α : Type} [LinearOrder α] (s : Stair α)
    (hD : s.cfg.stepDown s.step_size_current s.next_intensity ≤ s.next_intensity)
    (hcomp : ∀ a b, s.cfg.min_val = some a → s.cfg.max_val = some b → a ≤ b)
    (hx : InB s.cfg.min_val s.cfg.max_val s.next_intensity) :
    InB s.cfg.min_val s.cfg.max_val (intensityDec s).next_intensity := by
  obtain ⟨hlo, hhi⟩ := hx
  unfold intensityDec InB
  dsimp only
  refine ⟨fun a ha => ?_, fun b hb => ?_⟩
  · rw [ha]
    dsimp only
    split_ifs with hm
    · exact le_refl a
    · exact le_of_not_lt hm
  · cases hmn : s.cfg.min_val with
    | none =>
      dsimp only
      exact le_trans hD (hhi b hb)
    | some m =>
      dsimp only
      split_ifs with hm
      · exact hcomp m b hmn hb
      · exact le_trans hD (hhi b hb)

/-- The intensity-update dispatch keeps the next intensity within bounds. -/
theorem applyIntensityRule_bounds {α : Type} [LinearOrder α] (last : Bool) (s : Stair α)
    (hU : s.next_intensity ≤ s.cfg.stepUp s.step_size_current s.next_intensity)
    (hD : s.cfg.stepDown s.step_size_current s.next_intensity ≤ s.next_intensity)
    (hcomp : ∀ a b, s.cfg.min_val = some a → s.cfg.max_val = some b → a ≤ b)
    (hx : InB s.cfg.min_val s.cfg.max_val s.next_intensity) :
    InB s.cfg.min_val s.cfg.max_val (applyIntensityRule last s).next_intensity := by
  unfold applyIntensityRule
  split_ifs <;>
    first
      | exact intensityInc_bounds s hU hcomp hx
      | exact intensityDec_bounds s hD hcomp hx
      | exact hx

/-- `calculatenext_intensity` keeps the next intensity within the bounds
(and the current step size inside the schedule), provided every step in
the schedule moves the intensity in its intended direction. -/
theorem calculatenextIntensity_bounds {α : Type} [LinearOrder α] (s s' : Stair α)
    (h : calculatenextIntensity s = some s')
    (hU : ∀ q, q ∈ s.cfg.step_sizes → ∀ x, x ≤ s.cfg.stepUp q x)
    (hD : ∀ q, q ∈ s.cfg.step_sizes → ∀ x, s.cfg.stepDown q x ≤ x)
    (hcomp : ∀ a b, s.cfg.min_val = some a → s.cfg.max_val = some b → a ≤ b)
    (hstep : s.step_size_current ∈ s.cfg.step_sizes)
    (hx : InB s.cfg.min_val s.cfg.max_val s.next_intensity) :
    InB s.cfg.min_val s.cfg.max_val s'.next_intensity ∧
      s'.step_size_current ∈ s.cfg.step_sizes := by
  unfold calculatenextIntensity at h
  cases hlast : s.data.getLast? with
  | none =>
    rw [hlast] at h
    simp at h
  | some last =>
    rw [hlast] at h
    dsimp only at h
    cases hrec : recordReversal (computeReversal last s).1
        { s with current_direction := (computeReversal last s).2 } with
    | none =>
      rw [hrec] at h
      simp at h
    | some s2 =>
      rw [hrec] at h
      dsimp only at h
      cases hst : updateStepSize (computeReversal last s).1 (updateFinished s2) with
      | none =>
        rw [hst] at h
        simp at h
      | some s4 =>
        rw [hst] at h
        dsimp only at h
        obtain rfl := Option.some.inj h
        obtain ⟨r1, _, _, _, _, _, r7, _⟩ := recordReversal_spec _ _ _ hrec
        obtain ⟨u1, _, _, _, _, _, u7, _⟩ := updateFinished_spec s2
        obtain ⟨v1, _, _, _, _, _, _, v8⟩ := updateStepSize_spec _ _ _ hst
        have hcfg : s4.cfg = s.cfg := by rw [v1, u1, r1]
        have hnext : s4.next_intensity = s.next_intensity := by rw [v8, u7, r7]
        have hstep4 : s4.step_size_current ∈ s.cfg.step_sizes := by
          rcases updateStepSize_mem _ _ _ hst with hsame | hmem
          · rw [hsame, updateFinished_step s2, recordReversal_step _ _ _ hrec]
            exact hstep
          · rw [u1, r1] at hmem
            exact hmem
        have h4 : InB s4.cfg.min_val s4.cfg.max_val s4.next_intensity := by
          rw [hcfg, hnext]
          exact hx
        have hb := applyIntensityRule_bounds last s4
          (by rw [hcfg]; exact hU _ hstep4 _)
          (by rw [hcfg]; exact hD _ hstep4 _)
          (by rw [hcfg]; exact hcomp) h4
        rw [hcfg] at hb
        refine ⟨hb, ?_⟩
        rw [applyIntensityRule_step last s4]
        exact hstep4

/-- The driving loop keeps every presented intensity and the pending one
within the configured bounds, as long as every step in the schedule
moves the intensity in its intended direction. -/
theorem runStaircase_bounds {α : Type} [LinearOrder α] :
    ∀ (rs : List Bool) (s s' : Stair α),
      (∀ q, q ∈ s.cfg.step_sizes → ∀ x, x ≤ s.cfg.stepUp q x) →
      (∀ q, q ∈ s.cfg.step_sizes → ∀ x, s.cfg.stepDown q x ≤ x) →
      (∀ a b, s.cfg.min_val = some a → s.cfg.max_val = some b → a ≤ b) →
      s.step_size_current ∈ s.cfg.step_sizes →
      InB s.cfg.min_val s.cfg.max_val s.next_intensity →
      (∀ x ∈ s.intensities, InB s.cfg.min_val s.cfg.max_val x) →
      runStaircase s rs = some s' →
      (s'.cfg = s.cfg ∧ InB s.cfg.min_val s.cfg.max_val s'.next_intensity ∧
        ∀ x ∈ s'.intensities, InB s.cfg.min_val s.cfg.max_val x) := by
  intro rs
  induction rs with
  | nil =>
    intro s s' _ _ _ _ hx hmem h
    obtain rfl := Option.some.inj h
    exact ⟨rfl, hx, hmem⟩
  | cons r rs ih =>
    intro s s' hU hD hcomp hstep hx hmem h
    unfold runStaircase at h
    cases hfin : s.finished with
    | true =>
      rw [show stairPull s = none by unfold stairPull; rw [if_pos (by simp [hfin])]] at h
      dsimp only at h
      obtain rfl := Option.some.inj h
      exact ⟨rfl, hx, hmem⟩
    | false =>
      rw [stairPull_spec s hfin] at h
      dsimp only at h
      set s1 := { s with this_trial_n := s.this_trial_n + 1
                         intensities := s.intensities ++ [s.next_intensity] } with hs1
      cases hadd : addResponse s1 r none with
      | none =>
        rw [hadd] at h
        simp at h
      | some s2 =>
        rw [hadd] at h
        dsimp only at h
        obtain ⟨a1, a2, _, _⟩ := addResponse_none_spec _ _ _ hadd
        have hmem1 : ∀ x ∈ s1.intensities, InB s.cfg.min_val s.cfg.max_val x := by
          intro x hxm
          rw [hs1] at hxm
          dsimp only at hxm
          rcases List.mem_append.mp hxm with hxm | hxm
          · exact hmem x hxm
          · rw [List.mem_singleton.mp hxm]
            exact hx
        have hcalc : addResponse s1 r none = some s2 := hadd
        have hbounds2 : InB s.cfg.min_val s.cfg.max_val s2.next_intensity ∧
            s2.step_size_current ∈ s.cfg.step_sizes := by
          unfold addResponse at hcalc
          dsimp only at hcalc
          have hres := calculatenextIntensity_bounds _ _ hcalc hU hD hcomp hstep hx
          exact hres
        have hcfg2 : s2.cfg = s.cfg := a1
        obtain ⟨i1, i2, i3⟩ := ih s2 s'
          (by rw [hcfg2]; exact hU) (by rw [hcfg2]; exact hD) (by rw [hcfg2]; exact hcomp)
          (by rw [hcfg2]; exact hbounds2.2)
          (by rw [hcfg2]; exact hbounds2.1)
          (by rw [hcfg2, a2]; exact hmem1) h
        refine ⟨by rw [i1, hcfg2], ?_, ?_⟩
        · rw [hcfg2] at i2
          exact i2
        · rw [hcfg2] at i3
          exact i3

/-- Claim C5 (amended): for every staircase whose start value lies within
the configured bounds, with compatible bounds and a step schedule whose
raw steps move the intensity in the intended direction (as linear steps
with nonnegative sizes do), every run keeps the pending intensity and
every presented intensity within `min_val`/`max_val` — whichever of the
bounds are configured. -/
theorem C5_bounds {α : Type} [LinearOrder α] (start : α) (nRevs : Option ℕ)
    (stepSizes : List α) (nTrials : ℕ) (nUp nDown : ℤ) (minVal maxVal : Option α)
    (fUp fDown : α → α → α) (rs : List Bool) (s0 s : Stair α)
    (hU : ∀ q, q ∈ stepSizes → ∀ x, x ≤ fUp q x)
    (hD : ∀ q, q ∈ stepSizes → ∀ x, fDown q x ≤ x)
    (hcomp : ∀ a b, minVal = some a → maxVal = some b → a ≤ b)
    (hstart : InB minVal maxVal start)
    (hmk : mkStaircase start nRevs stepSizes nTrials nUp nDown minVal maxVal fUp fDown
      = some s0)
    (hrun : runStaircase s0 rs = some s) :
    InB minVal maxVal s.next_intensity ∧ ∀ x ∈ s.intensities, InB minVal maxVal x := by
  obtain ⟨_, _, m3, _, _, m6, _, _, _, _, m11, m12, m13, m14, m15⟩ :=
    mkStaircase_spec _ _ _ _ _ _ _ _ _ _ _ hmk
  have hstep0 : s0.step_size_current ∈ s0.cfg.step_sizes := by
    rw [m15]
    cases stepSizes with
    | nil => simp [mkStaircase] at hmk
    | cons a rest =>
      unfold mkStaircase at hmk
      dsimp only at hmk
      obtain rfl := Option.some.inj hmk
      simp
  obtain ⟨_, b2, b3⟩ := runStaircase_bounds rs s0 s
    (by rw [m13, m15]; exact hU) (by rw [m14, m15]; exact hD)
    (by rw [m11, m12]; exact hcomp) hstep0
    (by rw [m11, m12, m6]; exact hstart)
    (by rw [m3]; intro x hx; simp at hx) hrun
  rw [m11, m12] at b2 b3
  exact ⟨b2, b3⟩

/-- Claim C5 (counterexample): a staircase configured with
`start_val=100, min_val=0, max_val=60` presents `100 > max_val` on its
very first trial, so the claim as stated fails without the proviso that
the start value lie within the bounds. -/
theorem C5_counterexample :
    mkStaircase (100 : ℤ) none [4] 0 1 2 (some 0) (some 60) linStepInc linStepDec
      = some c5cex0 ∧
    c5cex0.cfg.max_val = some 60 ∧
    (stairPull c5cex0).map Prod.fst = some 100 ∧
    ¬ ((100 : ℤ) ≤ 60) :=
  ⟨rfl, by decide, by decide, by decide⟩

/-- Witness for C5: the staircase with `start_val=50, min_val=0,
max_val=60, step_sizes=[4]` after responses `[1, 1]`. -/
theorem C5_bounds_witness :
    InB (some 0) (some 60) c5s.next_intensity ∧
    ∀ x ∈ c5s.intensities, InB (some 0) (some 60) x :=
  C5_bounds (50 : ℤ) none [4] 0 1 1 (some 0) (some 60) linStepInc linStepDec
    [true, true] c5s0 c5s
    (by intro q hq x; simp at hq; simp [linStepInc, hq])
    (by intro q hq x; simp at hq; simp [linStepDec, hq])
    (by intro a b ha hb; cases ha; cases hb; decide)
    (by constructor <;> (intro v hv; cases hv; decide))
    rfl rfl

/-! ## Threshold (claim C3) -/

/-- Claim C3 (amended): `threshold` returns `None` whenever the staircase
is not finished; once finished — at which point at least `n_reversals`
reversals are recorded — for `n ≥ 1` it averages the intensities of the
last `min(n, n_reversals)` recorded reversals, where `n_reversals` is the
*configured minimum reversal count* (`n` is clamped to it, not to the
number actually recorded): geometric mean (`exp` of the mean of `log`s)
for method `"geometric"`, arithmetic mean for any other method. -/
theorem C3_threshold_amended {α : Type} [LinearOrder α] (toR : α → ℝ) (start : α)
    (nRevs : Option ℕ) (stepSizes : List α) (nTrials : ℕ) (nUp nDown : ℤ)
    (minVal maxVal : Option α) (fUp fDown : α → α → α) (rs : List Bool) (s0 s : Stair α)
    (hmk : mkStaircase start nRevs stepSizes nTrials nUp nDown minVal maxVal fUp fDown
      = some s0)
    (hrun : runStaircase s0 rs = some s) :
    (s.finished = false → ∀ (n : ℤ) (m : String), threshold toR s n m = none) ∧
    (s.finished = true →
      s.cfg.n_reversals ≤ s.reversal_intensities.length ∧
      ∀ (n : ℤ), 1 ≤ n →
        (∀ (m : String), m ≠ "geometric" →
          threshold toR s n m = some (listMeanR
            ((s.reversal_intensities.drop
              (s.reversal_intensities.length - min n.toNat s.cfg.n_reversals)).map toR))) ∧
        threshold toR s n ("geometric") = some (Real.exp (listMeanR
          ((s.reversal_intensities.drop
            (s.reversal_intensities.length - min n.toNat s.cfg.n_reversals)).map
              (fun q => Real.log (toR q)))))) := by
  obtain ⟨m1, _, m3, m4, _, _, m7, _⟩ := mkStaircase_spec _ _ _ _ _ _ _ _ _ _ _ hmk
  have hbase : s0.finished = true ↔ stopCond s0 := by
    rw [m1]
    unfold stopCond
    rw [m4]
    simp
    omega
  obtain ⟨hiff, hcfg⟩ := runStaircase_inv rs s0 s hbase hrun
  constructor
  · intro hfin n m
    unfold threshold
    rw [hfin]
    simp
  · intro hfin
    have hge : s.cfg.n_reversals ≤ s.reversal_intensities.length :=
      (hiff.mp hfin).1
    have hnR : 1 ≤ s.cfg.n_reversals := by
      rw [hcfg]
      exact m7
    refine ⟨hge, ?_⟩
    intro n hn
    have hclamp : (if (s.cfg.n_reversals : ℤ) < n then (s.cfg.n_reversals : ℤ) else n)
        = ((min n.toNat s.cfg.n_reversals : ℕ) : ℤ) := by
      by_cases hc : (s.cfg.n_reversals : ℤ) < n
      · rw [if_pos hc, Nat.min_eq_right (by omega)]
      · rw [if_neg hc, Nat.min_eq_left (by omega)]
        omega
    have hpos : (0 : ℤ) < ((min n.toNat s.cfg.n_reversals : ℕ) : ℤ) := by
      have h1 : 1 ≤ min n.toNat s.cfg.n_reversals := le_min (by omega) hnR
      omega
    have hslice : pySliceLast s.reversal_intensities
        (if (s.cfg.n_reversals : ℤ) < n then (s.cfg.n_reversals : ℤ) else n)
        = s.reversal_intensities.drop
            (s.reversal_intensities.length - min n.toNat s.cfg.n_reversals) := by
      rw [hclamp]
      unfold pySliceLast
      rw [if_pos hpos]
      congr 1
    constructor
    · intro m hm
      unfold threshold
      rw [if_pos hfin]
      dsimp only
      rw [hslice, if_neg (by simpa using hm)]
    · unfold threshold
      rw [if_pos hfin]
      dsimp only
      rw [hslice, if_pos rfl]

/-- Claim C3 (counterexample): the C3 staircase finishes with 8 recorded
reversals while `n_reversals = 2`; requesting `threshold(3)` with the
arithmetic method averages only the last 2 reversal intensities (the code
clamps `n` to the configured `n_reversals`), not the last 3 recorded ones
as the claim states. -/
theorem C3_counterexample :
    c3s.finished = true ∧
    c3s.reversal_intensities.length = 8 ∧
    threshold Int.cast c3s 3 "arithmetic" ≠
      some (listMeanR ((pySliceLast c3s.reversal_intensities 3).map Int.cast)) := by
  refine ⟨by decide, by decide, ?_⟩
  have h1 : pySliceLast c3s.reversal_intensities
      (if (c3s.cfg.n_reversals : ℤ) < 3 then (c3s.cfg.n_reversals : ℤ) else 3)
      = [9, 10] := by decide
  have h2 : pySliceLast c3s.reversal_intensities 3 = [10, 9, 10] := by decide
  have hfin : c3s.finished = true := by decide
  unfold threshold
  rw [if_pos hfin]
  dsimp only
  rw [h1, h2, if_neg (by decide : ¬ ("arithmetic" : String) = "geometric")]
  intro hcon
  have heq := Option.some.inj hcon
  simp [listMeanR] at heq
  norm_num at heq

/-- The concrete C3 run, evaluated in the kernel. -/
theorem c3run_some :
    runStaircase c3s0 [true, false, true, false, true, false, true, false, true]
      = some c3s := by
  cases ho : runStaircase c3s0 [true, false, true, false, true, false, true, false, true] with
  | none =>
    have hs : (runStaircase c3s0
        [true, false, true, false, true, false, true, false, true]).isSome = true := by
      decide
    rw [ho] at hs
    simp at hs
  | some v =>
    unfold c3s
    rw [ho]
    rfl

/-- Witness for C3 (amended): on the finished C3 staircase,
`threshold(3, method='arithmetic')` averages the last
`min(3, n_reversals) = 2` recorded reversal intensities, `[9, 10]`. -/
theorem C3_threshold_amended_witness :
    threshold Int.cast c3s 3 "arithmetic" =
      some (listMeanR (([9, 10] : List ℤ).map Int.cast)) := by
  have H := (C3_threshold_amended Int.cast (10 : ℤ) (some 2) [1] 9 1 1 none none
    linStepInc linStepDec [true, false, true, false, true, false, true, false, true]
    c3s0 c3s rfl c3run_some).2 (by decide)
  obtain ⟨hge, H2⟩ := H
  have H3 := (H2 3 (by decide)).1 "arithmetic" (by decide)
  rw [H3, show c3s.reversal_intensities.drop
      (c3s.reversal_intensities.length - min (3 : ℤ).toNat c3s.cfg.n_reversals)
      = [9, 10] by decide]

end Slab
